import Mathlib

/-!
Verification of the distributed k-means clustering engine in
`K-Means_Clustering_Using_MPI/KMeansMPI.h` (template class `KMeansMPI<k, d>`).

Shallow embedding conventions:
* An `Element` (`std::array<unsigned char, d>`) is a `List Nat` whose entries
  are byte values (`< 256`); every place the C++ narrows a wider value to
  `unsigned char` is modelled by an explicit `% 256`.
* The MPI collectives are modelled by their data movement: `MPI_Scatterv`
  hands worker `z` the slice of the root's send buffer described by
  `displs[z]`/`sendcounts[z]`; `MPI_Gather`/`MPI_Gatherv` concatenate the
  per-rank send buffers in rank order (the displacements computed by the code
  are exactly the partial sums of the counts, so the root's receive buffer is
  that concatenation).
* `double` arithmetic in `updateCentroid` is modelled by exact natural-number
  arithmetic: the products and sums involved are integers below `2^53`, hence
  exact in `double`, and the final quotient is at most `255`, so the one
  rounding step of the `double` division (error below `2^-44`) cannot move the
  value across an integer boundary (the distance of the exact quotient to the
  nearest integer above it is at least `1/(cc+ec) >= 2^-31` when not integral);
  the C++ truncation `int size = sum / n` is therefore `Nat` division.
* The virtual `distance` metric (pure virtual in the base class; the MNIST
  subclass uses the Euclidean metric) is an explicit parameter of type
  `Element -> Element -> Rat`, an exact model of the `double`-valued table
  `dist[i][j]`.
-/

namespace KMeansMPI

/-- Model of `Element = std::array<unsigned char, d>`: a list of byte values. -/
abbrev Element := List Nat

/-- Source constant `MAX_NUM_GENERATIONS = 300`. -/
def MAX_NUM_GENERATIONS : Nat := 300

/-! ## Partitioner (`partitionColors`) -/

/-- Source: `int colorsEachProcess = nColors / proccesses;`. -/
def colorsEachProcess (nColors proccesses : Nat) : Nat := nColors / proccesses

/-- Source: `maxNum = colorsEachProcess; if (rank == proccesses - 1)
maxNum = nColors - (colorsEachProcess * (proccesses - 1));`. -/
def maxNumOf (nColors proccesses rank : Nat) : Nat :=
  if rank = proccesses - 1 then
    nColors - colorsEachProcess nColors proccesses * (proccesses - 1)
  else colorsEachProcess nColors proccesses

/-- Root-side marshalling loop of `partitionColors`: for each global index `i`,
the `d` bytes of `elements[i]` followed by `(unsigned char)i`, i.e. `i % 256`. -/
def scatterSendbuf (elements : List Element) : List Nat :=
  (List.zipWith (fun e i => e ++ [i % 256]) elements (List.range elements.length)).flatten

/-- Source: `displs[z] = z * colorsEachProcess * (d + 1);`. -/
def scatterDispl (d nColors proccesses rank : Nat) : Nat :=
  rank * colorsEachProcess nColors proccesses * (d + 1)

/-- Bytes handed to worker `rank` by `MPI_Scatterv`: the
`maxNum * (d + 1)`-byte slice of the root's send buffer starting at
`displs[rank]` (the code sets `sendcounts[z] = maxNum(z) * (d+1)`, with the
last rank receiving `index - (proccesses-1) * colorsEachProcess * (d+1)`
bytes, which is the same number). -/
def scatterSlice (d : Nat) (elements : List Element) (proccesses rank : Nat) : List Nat :=
  ((scatterSendbuf elements).drop (scatterDispl d elements.length proccesses rank)).take
    (maxNumOf elements.length proccesses rank * (d + 1))

/-- Worker-side unmarshalling loop of `partitionColors`: reads `maxNum` records
of `d` element bytes followed by one index byte, filling `partition` and
`colorIds`. -/
def unmarshalPartition (d : Nat) : Nat → List Nat → List Element × List Nat
  | 0, _ => ([], [])
  | m + 1, buf =>
    let r := unmarshalPartition d m (buf.drop (d + 1))
    (buf.take d :: r.1, buf.getD d 0 :: r.2)

/-- The `partition` array held by worker `rank` after `partitionColors`. -/
def workerPartition (d : Nat) (elements : List Element) (proccesses rank : Nat) : List Element :=
  (unmarshalPartition d (maxNumOf elements.length proccesses rank)
    (scatterSlice d elements proccesses rank)).1

/-- The `colorIds` array held by worker `rank` after `partitionColors`. -/
def workerColorIdsRaw (d : Nat) (elements : List Element) (proccesses rank : Nat) : List Nat :=
  (unmarshalPartition d (maxNumOf elements.length proccesses rank)
    (scatterSlice d elements proccesses rank)).2

/-- Closed form of the `colorIds` of worker `rank`: the global indices of its
contiguous shard, each narrowed to a byte by the `(unsigned char)i` cast. -/
def workerColorIds (nColors proccesses rank : Nat) : List Nat :=
  (List.range' (rank * colorsEachProcess nColors proccesses)
    (maxNumOf nColors proccesses rank)).map (· % 256)

/-! ## Assignment engine (`updateDistances`, `updateClusters`, `updateCentroid`)

The pure virtual `distance` returns `double`; distance values are modelled in
an arbitrary linear order (the MNIST subclass instantiates it with the
Euclidean metric, whose comparisons agree with those of the integer-valued
squared metric `sqDistance` below because the square root is monotone). -/

/-- Selection loop of `updateClusters`: `int min = 0; for (int j = 1; j < k;
j++) if (dist[i][j] < dist[i][min]) min = j;`. -/
def chooseCluster {α : Type} [LinearOrder α] (k : Nat) (di : Nat → α) : Nat :=
  (List.range' 1 (k - 1)).foldl (fun m j => if di j < di m then j else m) 0

/-- Table built by `updateDistances`:
`dist[i][j] = distance(clusters[j].centroid, partition[i])`. -/
def distTable {α : Type} (metric : Element → Element → α)
    (centroids partition : List Element) : Nat → Nat → α :=
  fun i j => metric (centroids.getD j []) (partition.getD i [])

/-- Source `updateCentroid`: per dimension
`sum = centroid[i]*centroidCount + newElement[i]*newElementCount;
size = sum / n; centroid[i] = (unsigned char)size` with
`n = centroidCount + newElementCount`. The `double` computation is exact and
its truncation is `Nat` division (see the header note); the narrowing cast is
`% 256`. When `n = 0` the C++ computes `0.0 / 0` (NaN; the cast to `int` is
undefined behaviour); `Nat` division makes that case `0`. -/
def updateCentroid (centroid : Element) (centroidCount : Nat)
    (newElement : Element) (newElementCount : Nat) : Element :=
  List.zipWith
    (fun ci ei => ((ci * centroidCount + ei * newElementCount) /
      (centroidCount + newElementCount)) % 256)
    centroid newElement

/-- Source `updateClusters`: every cluster is reset to the zero-filled
`Element{}` with an empty member list, then each local index `i` (ascending)
is assigned to the cluster selected by `chooseCluster`, whose running-mean
centroid is updated (`updateCentroid` with new-element count 1) and whose
member list receives `i` at the back. -/
def updateClustersFull {α : Type} [LinearOrder α] (k d : Nat)
    (dist : Nat → Nat → α) (partition : List Element) : List (Element × List Nat) :=
  (List.range partition.length).foldl
    (fun cls i =>
      let m := chooseCluster k (dist i)
      let cur := cls.getD m (List.replicate d 0, [])
      cls.set m
        (updateCentroid cur.1 cur.2.length (partition.getD i []) 1, cur.2 ++ [i]))
    ((List.range k).map (fun _ => (List.replicate d 0, [])))

/-- Integer-valued squared Euclidean metric: the square of the MNIST
subclass's `calculateEuclideanDistance`; comparisons coincide. -/
def sqDistance (a b : Element) : Int :=
  (List.zipWith (fun x y => ((x : Int) - (y : Int)) * ((x : Int) - (y : Int))) a b).sum

/-- Fixture for the C6 witness: worker 0 holds one element, worker 1 two. -/
def wParts : Nat → List Element := fun z => if z = 0 then [[0]] else [[10], [250]]

/-- Fixture distance table for the C6 witness (all distances equal). -/
def wDist : Nat → Nat → Nat → Int := fun _ _ _ => 0

/-! ## Centroid aggregator (`combineClusters`) -/

/-- Per-worker send buffer of `combineClusters`: for each cluster in index
order, its `d` centroid bytes followed by `elements.size()` narrowed to one
`unsigned char`, i.e. `% 256`. -/
def combineSendBuf (cls : List (Element × Nat)) : List Nat :=
  (cls.map (fun c => c.1 ++ [c.2 % 256])).flatten

/-- Root-side record walk of `combineClusters`: reads records of `d` centroid
bytes plus one size byte, advancing a single running index. -/
def parseReport (d : Nat) : Nat → List Nat → List (Element × Nat)
  | 0, _ => []
  | m + 1, buf => (buf.take d, buf.getD d 0) :: parseReport d m (buf.drop (d + 1))

/-- One worker block of the root merge loop of `combineClusters`: for each
cluster index `i` in increasing order, `updateCentroid` against the running
count, then `clusterSizes[i] += size`. -/
def mergeWorkerReport (state report : List (Element × Nat)) : List (Element × Nat) :=
  List.zipWith (fun s r => (updateCentroid s.1 s.2 r.1 r.2, s.2 + r.2)) state report

/-- Root loop of `combineClusters` over the gathered buffer: the `z` loop
processes the `proccesses` worker blocks in increasing rank order. -/
def combineClustersRoot (d kk : Nat) :
    Nat → List Nat → List (Element × Nat) → List (Element × Nat)
  | 0, _, state => state
  | p + 1, buf, state =>
      combineClustersRoot d kk p (buf.drop (kk * (d + 1)))
        (mergeWorkerReport state (parseReport d kk buf))

/-- Written from the words of claim C10, for the refinement statement: merge
the structured per-worker reports by folding them in increasing rank order,
each report applied cluster-by-cluster in increasing cluster index. -/
def mergeReportsInOrder (state : List (Element × Nat))
    (reports : List (List (Element × Nat))) : List (Element × Nat) :=
  reports.foldl mergeWorkerReport state

/-! ## Convergence controller (the generation loop of `fitWork`) -/

/-- Centroid state reached after a number of rounds: `iterN step g c` applies
the per-round step `g` times (one application per generation: update
distances, reassign, aggregate, re-broadcast). -/
def iterN {α : Type} (step : α → α) : Nat → α → α
  | 0, c => c
  | m + 1, c => iterN step m (step c)

/-- Generation loop of `fitWork`: with a budget of generations remaining,
the loop first breaks if `prev == clusters` (cluster equality compares
centroids only), else executes one more round. Returns the final state, the
number of rounds executed, and whether the loop exited through the
convergence break (the spec's `CONVERGED`) or by exhausting the budget
(`CAPPED`). The per-round step is a parameter because it is built on the
pure-virtual `distance`. -/
def fitWorkLoop {α : Type} [DecidableEq α] (step : α → α) :
    Nat → α → α → α × Nat × Bool
  | 0, _, cur => (cur, 0, false)
  | b + 1, prev, cur =>
    if prev = cur then (cur, 0, true)
    else
      let r := fitWorkLoop step b cur (step cur)
      (r.1, r.2.1 + 1, r.2.2)

/-- Step function of the C7 counterexample run: the centroid pair encodes a
counter (base 256) that increases until it sticks at 299, so the centroids
first repeat exactly at round 300, the last round the cap allows. -/
def cxStep : List (List Nat) → List (List Nat) :=
  fun c =>
    [[(min ((c.headD []).headD 0 + 256 * ((c.headD []).getD 1 0) + 1) 299) % 256,
      (min ((c.headD []).headD 0 + 256 * ((c.headD []).getD 1 0) + 1) 299) / 256]]

/-! ## Result collector (`collectClusterAssignments`) -/

/-- Per-worker send buffer of `collectClusterAssignments`: for each cluster in
index order, `elements.size()` narrowed to one `unsigned char`, then the
global identity `colorIds[index]` of every member, narrowed to one
`unsigned char`. -/
def collectSendBuf (colorIds : List Nat) (mem : List (List Nat)) : List Nat :=
  (mem.map (fun c =>
    (c.length % 256) :: c.map (fun idx => (colorIds.getD idx 0) % 256))).flatten

/-- Root-side record walk of `collectClusterAssignments` for one worker block:
for each of `k` clusters, read one size byte and then that many identity
bytes. -/
def parseWorkerClusters : Nat → List Nat → List (List Nat) × List Nat
  | 0, buf => ([], buf)
  | kk + 1, buf =>
    let r := parseWorkerClusters kk (buf.tail.drop (buf.headD 0))
    (buf.tail.take (buf.headD 0) :: r.1, r.2)

/-- Root loop of `collectClusterAssignments` over the gathered buffer: the `z`
loop walks the `proccesses` worker blocks in increasing rank order. -/
def parseAllWorkers (kk : Nat) : Nat → List Nat → List (List (List Nat))
  | 0, _ => []
  | p + 1, buf =>
    (parseWorkerClusters kk buf).1 ::
      parseAllWorkers kk p (parseWorkerClusters kk buf).2

/-- Final membership list of cluster `i` in the coordinator's `Clusters` after
`collectClusterAssignments`: the concatenation, in rank order, of the parsed
per-worker entries for cluster `i` (`clusters[i].elements.push_back`). -/
def finalClusterElements (P kk : Nat) (buf : List Nat) (i : Nat) : List Nat :=
  ((parseAllWorkers kk P buf).map (fun ws => ws.getD i [])).flatten

/-- Fixture memberships for the C2 witness (`n = 5`, `P = 2`, `k = 2`). -/
def wMem : Nat → List (List Nat) := fun z => if z = 0 then [[0], [1]] else [[2, 0], [1]]

/-! ### Partitioner lemmas -/

theorem join_drop_blocks {α : Type} {s : Nat} :
    ∀ (m : Nat) (L : List (List α)), (∀ b ∈ L, b.length = s) →
      L.flatten.drop (m * s) = (L.drop m).flatten := by
  intro m
  induction m with
  | zero => intro L _; simp
  | succ m ih =>
    intro L hL
    cases L with
    | nil => simp
    | cons b L =>
      have hb : b.length = s := hL b (by simp)
      have hrest : ∀ x ∈ L, x.length = s := fun x hx => hL x (by simp [hx])
      calc ((b :: L).flatten).drop ((m + 1) * s)
          = (b ++ L.flatten).drop (s + m * s) := by
            simp [List.flatten_cons, Nat.succ_mul, Nat.add_comm]
        _ = (L.flatten).drop (m * s) := by
            rw [← List.drop_drop]
            congr 1
            rw [← hb]
            exact List.drop_left b L.flatten
        _ = (L.drop m).flatten := ih L hrest

theorem join_take_blocks {α : Type} {s : Nat} :
    ∀ (m : Nat) (L : List (List α)), (∀ b ∈ L, b.length = s) →
      L.flatten.take (m * s) = (L.take m).flatten := by
  intro m
  induction m with
  | zero => intro L _; simp
  | succ m ih =>
    intro L hL
    cases L with
    | nil => simp
    | cons b L =>
      have hb : b.length = s := hL b (by simp)
      have hrest : ∀ x ∈ L, x.length = s := fun x hx => hL x (by simp [hx])
      calc ((b :: L).flatten).take ((m + 1) * s)
          = (b ++ L.flatten).take (s + m * s) := by
            simp [List.flatten_cons, Nat.succ_mul, Nat.add_comm]
        _ = b ++ (L.flatten).take (m * s) := by
            rw [← hb, List.take_append]
        _ = (b :: L.take m).flatten := by rw [ih L hrest]; simp

theorem drop_range_aux : ∀ (m s n : Nat), (List.range' s n).drop m = List.range' (s + m) (n - m) := by
  intro m
  induction m with
  | zero => intro s n; simp
  | succ m ih =>
    intro s n
    cases n with
    | zero => simp
    | succ n =>
      rw [List.range'_succ, List.drop_succ_cons, ih (s + 1) n,
        show s + 1 + m = s + (m + 1) by omega, Nat.succ_sub_succ]

theorem take_range_aux : ∀ (m s n : Nat), (List.range' s n).take m = List.range' s (min m n) := by
  intro m
  induction m with
  | zero => intro s n; simp
  | succ m ih =>
    intro s n
    cases n with
    | zero => simp
    | succ n =>
      rw [List.range'_succ, List.take_succ_cons, ih (s + 1) n]
      have : min (m + 1) (n + 1) = min m n + 1 := by omega
      rw [this, List.range'_succ]

theorem zipWith_marshal_length (d : Nat) :
    ∀ (es : List Element) (ids : List Nat), (∀ e ∈ es, e.length = d) →
      ∀ b ∈ List.zipWith (fun e i => e ++ [i % 256]) es ids, b.length = d + 1 := by
  intro es
  induction es with
  | nil => intro ids _ b hb; simp at hb
  | cons e es ih =>
    intro ids hd b hb
    cases ids with
    | nil => simp at hb
    | cons i ids =>
      rw [List.zipWith_cons_cons] at hb
      rcases List.mem_cons.mp hb with h | h
      · subst h
        simp [hd e (by simp)]
      · exact ih ids (fun x hx => hd x (by simp [hx])) b h

theorem unmarshal_marshal (d : Nat) :
    ∀ (es : List Element) (ids rest : List Nat),
      es.length = ids.length → (∀ e ∈ es, e.length = d) →
      unmarshalPartition d es.length
        ((List.zipWith (fun e i => e ++ [i % 256]) es ids).flatten ++ rest) =
      (es, ids.map (· % 256)) := by
  intro es
  induction es with
  | nil =>
    intro ids rest h _
    have hids : ids = [] := List.length_eq_zero.mp (by simpa using h.symm)
    subst hids
    simp [unmarshalPartition]
  | cons e es ih =>
    intro ids rest hlen hd
    cases ids with
    | nil => simp at hlen
    | cons i ids =>
      have he : e.length = d := hd e (by simp)
      have hlen' : es.length = ids.length := by simpa using hlen
      have hd' : ∀ x ∈ es, x.length = d := fun x hx => hd x (by simp [hx])
      have hbuf : (List.zipWith (fun e i => e ++ [i % 256]) (e :: es) (i :: ids)).flatten ++ rest
          = e ++ (i % 256 ::
            ((List.zipWith (fun e i => e ++ [i % 256]) es ids).flatten ++ rest)) := by
        simp [List.zipWith_cons_cons, List.flatten_cons]
      show unmarshalPartition d (es.length + 1) _ = _
      rw [hbuf, unmarshalPartition]
      have htake : (e ++ (i % 256 ::
          ((List.zipWith (fun e i => e ++ [i % 256]) es ids).flatten ++ rest))).take d = e := by
        rw [← he]
        exact List.take_left e _
      have hgetD : (e ++ (i % 256 ::
          ((List.zipWith (fun e i => e ++ [i % 256]) es ids).flatten ++ rest))).getD d 0
          = i % 256 := by
        rw [List.getD_eq_getElem?_getD, List.getElem?_append_right (by omega), he]
        simp
      have hdrop : (e ++ (i % 256 ::
          ((List.zipWith (fun e i => e ++ [i % 256]) es ids).flatten ++ rest))).drop (d + 1)
          = (List.zipWith (fun e i => e ++ [i % 256]) es ids).flatten ++ rest := by
        have : d + 1 = e.length + 1 := by omega
        rw [this, ← List.drop_drop, List.drop_left e _]
        simp
      simp only [htake, hgetD, hdrop, ih ids rest hlen' hd']
      simp

theorem maxNum_within (n P : Nat) (hP : 1 ≤ P) :
    ∀ z, z < P → z * (n / P) + maxNumOf n P z ≤ n := by
  intro z hz
  have hPq : P * (n / P) ≤ n := by
    rw [Nat.mul_comm]; exact Nat.div_mul_le_self n P
  unfold maxNumOf colorsEachProcess
  by_cases hlast : z = P - 1
  · rw [if_pos hlast, hlast]
    have h5 : n / P * (P - 1) = (P - 1) * (n / P) := Nat.mul_comm _ _
    have h4 : (P - 1) * (n / P) ≤ P * (n / P) := Nat.mul_le_mul_right _ (by omega)
    omega
  · rw [if_neg hlast]
    have h7 : (z + 1) * (n / P) = z * (n / P) + n / P := by ring
    have h6 : (z + 1) * (n / P) ≤ P * (n / P) := Nat.mul_le_mul_right _ (by omega)
    omega

theorem workerArrays_eq (d : Nat) (elements : List Element) (P : Nat)
    (hd : ∀ e ∈ elements, e.length = d) (hP : 1 ≤ P) :
    ∀ z, z < P →
      workerPartition d elements P z =
        (elements.drop (z * (elements.length / P))).take
          (maxNumOf elements.length P z) ∧
      workerColorIdsRaw d elements P z = workerColorIds elements.length P z := by
  intro z hz
  set n := elements.length with hn
  set q := n / P with hq
  set size := maxNumOf n P z with hsz
  have hcover : z * q + size ≤ n := maxNum_within n P hP z hz
  have hblocks : ∀ b ∈ List.zipWith (fun e i => e ++ [i % 256]) elements (List.range n),
      b.length = d + 1 := zipWith_marshal_length d elements (List.range n) hd
  have hslice : scatterSlice d elements P z =
      (List.zipWith (fun e i => e ++ [i % 256])
        ((elements.drop (z * q)).take size)
        (List.range' (z * q) size)).flatten := by
    unfold scatterSlice scatterDispl scatterSendbuf
    simp only [colorsEachProcess]
    rw [← hn, ← hq]
    rw [join_drop_blocks (z * q) _ hblocks]
    rw [join_take_blocks size _
      (fun b hb => hblocks b (List.mem_of_mem_drop hb))]
    rw [List.drop_zipWith, List.take_zipWith]
    congr 1
    rw [List.range_eq_range', drop_range_aux, take_range_aux,
      show (0 : Nat) + z * q = z * q by omega,
      show min size (n - z * q) = size by omega]
  have hshardlen : ((elements.drop (z * q)).take size).length = size := by
    simp [← hn]
    omega
  have hidlen : ((elements.drop (z * q)).take size).length =
      (List.range' (z * q) size).length := by
    rw [hshardlen, List.length_range']
  have hdshard : ∀ e ∈ (elements.drop (z * q)).take size, e.length = d :=
    fun e he => hd e (List.mem_of_mem_drop (List.mem_of_mem_take he))
  have hmain := unmarshal_marshal d ((elements.drop (z * q)).take size)
    (List.range' (z * q) size) [] hidlen hdshard
  rw [List.append_nil, hshardlen] at hmain
  constructor
  · unfold workerPartition
    rw [← hn, ← hsz, hslice, hmain]
  · unfold workerColorIdsRaw workerColorIds
    simp only [colorsEachProcess]
    rw [← hn, ← hsz, hslice, hmain, ← hq]

theorem take_drop_cover {α : Type} (l : List α) (q : Nat) :
    ∀ m, ((List.range m).map (fun z => (l.drop (z * q)).take q)).flatten =
      l.take (m * q) := by
  intro m
  induction m with
  | zero => simp
  | succ m ih =>
    rw [List.range_succ, List.map_append, List.flatten_append, ih]
    rw [show (m + 1) * q = m * q + q by ring, List.take_add]
    simp

/-- Claim C3: for `n >= 1` workers `P` with `1 <= P <= n`, every rank except
the last receives a shard of exactly `n / P` elements, the last receives
`n - (P-1) * (n/P)` elements, and the shards delivered by the scatter are the
contiguous slices of the dataset in rank order (their rank-order concatenation
is the original dataset). -/
theorem claim_shard_sizes_and_contiguity (d : Nat) (elements : List Element) (P : Nat)
    (hd : ∀ e ∈ elements, e.length = d) (hP : 1 ≤ P) (hPn : P ≤ elements.length) :
    (∀ z, z < P - 1 → maxNumOf elements.length P z = elements.length / P) ∧
    maxNumOf elements.length P (P - 1) =
      elements.length - (P - 1) * (elements.length / P) ∧
    (∀ z, z < P → workerPartition d elements P z =
      (elements.drop (z * (elements.length / P))).take (maxNumOf elements.length P z)) ∧
    ((List.range P).map (fun z => workerPartition d elements P z)).flatten = elements := by
  set n := elements.length with hn
  set q := n / P with hq
  refine ⟨?_, ?_, ?_, ?_⟩
  · intro z hz
    unfold maxNumOf colorsEachProcess
    rw [if_neg (by omega)]
  · unfold maxNumOf colorsEachProcess
    rw [if_pos rfl, Nat.mul_comm, ← hq]
  · intro z hz
    exact (workerArrays_eq d elements P hd hP z hz).1
  · have hshards : ∀ z ∈ List.range P, workerPartition d elements P z =
        (elements.drop (z * q)).take (maxNumOf n P z) := by
      intro z hz
      exact (workerArrays_eq d elements P hd hP z (List.mem_range.mp hz)).1
    rw [List.map_congr_left hshards]
    have hsplit : List.range P = List.range (P - 1) ++ [P - 1] := by
      rw [← List.range_succ]
      congr 1
      omega
    rw [hsplit, List.map_append, List.flatten_append]
    have hreg : ∀ z ∈ List.range (P - 1),
        (elements.drop (z * q)).take (maxNumOf n P z) =
        (elements.drop (z * q)).take q := by
      intro z hz
      have hz' := List.mem_range.mp hz
      unfold maxNumOf colorsEachProcess
      rw [if_neg (by omega), ← hq]
    rw [List.map_congr_left hreg, take_drop_cover elements q (P - 1)]
    have hlastlen : maxNumOf n P (P - 1) = n - (P - 1) * q := by
      unfold maxNumOf colorsEachProcess
      rw [if_pos rfl, Nat.mul_comm, ← hq]
    simp only [List.map_cons, List.map_nil, List.flatten_cons, List.flatten_nil,
      List.append_nil, hlastlen]
    have hPq : (P - 1) * q ≤ n := by
      have h1 : P * q ≤ n := by
        rw [Nat.mul_comm, hq]; exact Nat.div_mul_le_self n P
      have h2 : (P - 1) * q ≤ P * q := Nat.mul_le_mul_right _ (by omega)
      omega
    rw [← List.take_add]
    rw [show (P - 1) * q + (n - (P - 1) * q) = n by omega, hn, List.take_length]

/-- Witness for C3 at `n = 5`, `P = 2`, `d = 1`: worker 0 gets 2 elements,
worker 1 gets 3, and the two shards are the contiguous halves in rank order. -/
theorem claim_shard_sizes_and_contiguity_witness :
    (∀ e ∈ ([[1], [2], [3], [4], [5]] : List Element), e.length = 1) ∧
    ((∀ z, z < 2 - 1 → maxNumOf 5 2 z = 5 / 2) ∧
      maxNumOf 5 2 (2 - 1) = 5 - (2 - 1) * (5 / 2) ∧
      (∀ z, z < 2 → workerPartition 1 [[1], [2], [3], [4], [5]] 2 z =
        (([[1], [2], [3], [4], [5]] : List Element).drop (z * (5 / 2))).take
          (maxNumOf 5 2 z)) ∧
      ((List.range 2).map
        (fun z => workerPartition 1 [[1], [2], [3], [4], [5]] 2 z)).flatten
        = [[1], [2], [3], [4], [5]]) :=
  ⟨by decide, by
    have h := claim_shard_sizes_and_contiguity 1 [[1], [2], [3], [4], [5]] 2
      (by decide) (by decide) (by decide)
    simpa using h⟩

/-! ### Assignment lemmas -/

theorem chooseCluster_loop_spec {α : Type} [LinearOrder α] (di : Nat → α) :
    ∀ m : Nat,
      ((List.range' 1 m).foldl (fun a j => if di j < di a then j else a) 0) ≤ m ∧
      (∀ j, j ≤ m →
        di ((List.range' 1 m).foldl (fun a j => if di j < di a then j else a) 0) ≤ di j) ∧
      (∀ j, j ≤ m →
        di j = di ((List.range' 1 m).foldl (fun a j => if di j < di a then j else a) 0) →
        ((List.range' 1 m).foldl (fun a j => if di j < di a then j else a) 0) ≤ j) := by
  intro m
  induction m with
  | zero =>
    refine ⟨Nat.le_refl 0, ?_, ?_⟩
    · intro j hj
      have : j = 0 := Nat.le_zero.mp hj
      subst this
      exact le_refl _
    · intro j hj _
      exact Nat.zero_le j
  | succ m ih =>
    obtain ⟨hb, hmin, htie⟩ := ih
    rw [List.range'_1_concat, List.foldl_append]
    set r := (List.range' 1 m).foldl (fun a j => if di j < di a then j else a) 0 with hr
    simp only [List.foldl_cons, List.foldl_nil]
    by_cases hlt : di (1 + m) < di r
    · rw [if_pos hlt]
      refine ⟨by omega, ?_, ?_⟩
      · intro j hj
        rcases Nat.lt_succ_iff_lt_or_eq.mp (Nat.lt_succ_of_le hj) with h | h
        · exact le_trans (le_of_lt hlt) (hmin j (by omega))
        · subst h
          rw [Nat.add_comm 1 m]
      · intro j hj heq
        rcases Nat.lt_succ_iff_lt_or_eq.mp (Nat.lt_succ_of_le hj) with h | h
        · exfalso
          have h1 := hmin j (by omega)
          have h2 : di (1 + m) < di j := lt_of_lt_of_le hlt h1
          rw [heq] at h2
          exact lt_irrefl _ h2
        · omega
    · rw [if_neg hlt]
      refine ⟨by omega, ?_, ?_⟩
      · intro j hj
        rcases Nat.lt_succ_iff_lt_or_eq.mp (Nat.lt_succ_of_le hj) with h | h
        · exact hmin j (by omega)
        · subst h
          exact le_of_not_lt (by simpa [Nat.add_comm] using hlt)
      · intro j hj heq
        rcases Nat.lt_succ_iff_lt_or_eq.mp (Nat.lt_succ_of_le hj) with h | h
        · exact htie j (by omega) heq
        · omega

theorem chooseCluster_spec {α : Type} [LinearOrder α] (k : Nat) (hk : 0 < k)
    (di : Nat → α) :
    chooseCluster k di < k ∧
    (∀ j, j < k → di (chooseCluster k di) ≤ di j) ∧
    (∀ j, j < k → di j = di (chooseCluster k di) → chooseCluster k di ≤ j) := by
  have h := chooseCluster_loop_spec di (k - 1)
  unfold chooseCluster
  exact ⟨by omega, fun j hj => h.2.1 j (by omega), fun j hj => h.2.2 j (by omega)⟩

/-- Claim C4: in the assignment phase, each local element is assigned to the
cluster whose centroid has minimum distance to it under the configured
metric (the distance table of `updateDistances`), and an equal-minimum tie
goes to the lowest cluster index. -/
theorem claim_assignment_nearest_lowest_index {α : Type} [LinearOrder α]
    (metric : Element → Element → α) (centroids partition : List Element)
    (hk : 0 < centroids.length) (i : Nat) (hi : i < partition.length) :
    chooseCluster centroids.length (distTable metric centroids partition i) <
      centroids.length ∧
    (∀ j, j < centroids.length →
      metric (centroids.getD
          (chooseCluster centroids.length (distTable metric centroids partition i)) [])
        (partition.getD i []) ≤
        metric (centroids.getD j []) (partition.getD i [])) ∧
    (∀ j, j < centroids.length →
      metric (centroids.getD j []) (partition.getD i []) =
        metric (centroids.getD
          (chooseCluster centroids.length (distTable metric centroids partition i)) [])
          (partition.getD i []) →
      chooseCluster centroids.length (distTable metric centroids partition i) ≤ j) := by
  have h := chooseCluster_spec centroids.length hk
    (distTable metric centroids partition i)
  exact ⟨h.1, fun j hj => h.2.1 j hj, fun j hj heq => h.2.2 j hj heq⟩

/-- Witness for C4 with an equidistant fixture: centroids `[[0], [4]]` are both
at squared distance 16 from the element `[2]`; the tie goes to index 0. -/
theorem claim_assignment_nearest_lowest_index_witness :
    (0 < ([[0], [4]] : List Element).length ∧ 0 < ([[2]] : List Element).length) ∧
    chooseCluster ([[0], [4]] : List Element).length
      (distTable sqDistance [[0], [4]] [[2]] 0) = 0 ∧
    (chooseCluster ([[0], [4]] : List Element).length
        (distTable sqDistance [[0], [4]] [[2]] 0) < ([[0], [4]] : List Element).length ∧
      (∀ j, j < ([[0], [4]] : List Element).length →
        sqDistance (([[0], [4]] : List Element).getD
            (chooseCluster ([[0], [4]] : List Element).length
              (distTable sqDistance [[0], [4]] [[2]] 0)) [])
          (([[2]] : List Element).getD 0 []) ≤
          sqDistance (([[0], [4]] : List Element).getD j [])
            (([[2]] : List Element).getD 0 [])) ∧
      (∀ j, j < ([[0], [4]] : List Element).length →
        sqDistance (([[0], [4]] : List Element).getD j [])
            (([[2]] : List Element).getD 0 []) =
          sqDistance (([[0], [4]] : List Element).getD
              (chooseCluster ([[0], [4]] : List Element).length
                (distTable sqDistance [[0], [4]] [[2]] 0)) [])
            (([[2]] : List Element).getD 0 []) →
        chooseCluster ([[0], [4]] : List Element).length
          (distTable sqDistance [[0], [4]] [[2]] 0) ≤ j)) :=
  ⟨⟨by decide, by decide⟩, by decide,
    claim_assignment_nearest_lowest_index sqDistance [[0], [4]] [[2]]
      (by decide) 0 (by decide)⟩

/-- Claim C5: with `old_count + new_count > 0` and byte-valued inputs,
`updateCentroid` sets every dimension to
`(old_mean[i]*old_count + new_value[i]*new_count) / (old_count+new_count)`,
truncated, and the result stays in the byte value domain. -/
theorem claim_updateCentroid_formula (c e : Element) (cc ec : Nat)
    (hlen : c.length = e.length) (hpos : 0 < cc + ec)
    (hc : ∀ x ∈ c, x < 256) (he : ∀ x ∈ e, x < 256) :
    (updateCentroid c cc e ec).length = c.length ∧
    ∀ i, i < c.length →
      (updateCentroid c cc e ec).getD i 0 =
        (c.getD i 0 * cc + e.getD i 0 * ec) / (cc + ec) ∧
      (c.getD i 0 * cc + e.getD i 0 * ec) / (cc + ec) < 256 := by
  constructor
  · unfold updateCentroid
    rw [List.length_zipWith, hlen, Nat.min_self]
  · intro i hi
    have hie : i < e.length := by omega
    have hdiv : (c.getD i 0 * cc + e.getD i 0 * ec) / (cc + ec) < 256 := by
      have hcb : c.getD i 0 < 256 := by
        rw [List.getD_eq_getElem?_getD, List.getElem?_eq_getElem hi]
        exact hc _ (List.getElem_mem hi)
      have heb : e.getD i 0 < 256 := by
        rw [List.getD_eq_getElem?_getD, List.getElem?_eq_getElem hie]
        exact he _ (List.getElem_mem hie)
      rw [Nat.div_lt_iff_lt_mul hpos]
      calc c.getD i 0 * cc + e.getD i 0 * ec
          ≤ 255 * cc + 255 * ec := by
            have h1 : c.getD i 0 * cc ≤ 255 * cc :=
              Nat.mul_le_mul_right cc (by omega)
            have h2 : e.getD i 0 * ec ≤ 255 * ec :=
              Nat.mul_le_mul_right ec (by omega)
            omega
        _ < 256 * (cc + ec) := by
            have : 255 * cc + 255 * ec = 255 * (cc + ec) := by ring
            rw [this]
            exact (Nat.mul_lt_mul_right hpos).mpr (by omega)
    refine ⟨?_, hdiv⟩
    have hizip : i < (updateCentroid c cc e ec).length := by
      unfold updateCentroid
      rw [List.length_zipWith, hlen, Nat.min_self]
      omega
    rw [List.getD_eq_getElem?_getD, List.getElem?_eq_getElem hizip]
    unfold updateCentroid
    rw [List.getElem_zipWith]
    simp only [List.getD_eq_getElem?_getD, List.getElem?_eq_getElem hi,
      List.getElem?_eq_getElem hie, Option.getD_some] at hdiv ⊢
    exact Nat.mod_eq_of_lt hdiv

/-- Witness for C5: `updateCentroid [100] 3 [200] 1 = [(100*3 + 200*1) / 4] = [125]`. -/
theorem claim_updateCentroid_formula_witness :
    (([100] : Element).length = ([200] : Element).length ∧ 0 < 3 + 1 ∧
      (∀ x ∈ ([100] : Element), x < 256) ∧ (∀ x ∈ ([200] : Element), x < 256)) ∧
    updateCentroid [100] 3 [200] 1 = [125] ∧
    ((updateCentroid [100] 3 [200] 1).length = ([100] : Element).length ∧
      ∀ i, i < ([100] : Element).length →
        (updateCentroid [100] 3 [200] 1).getD i 0 =
          (([100] : Element).getD i 0 * 3 + ([200] : Element).getD i 0 * 1) / (3 + 1) ∧
        (([100] : Element).getD i 0 * 3 + ([200] : Element).getD i 0 * 1) / (3 + 1) < 256) :=
  ⟨⟨by decide, by decide, by decide, by decide⟩, by decide,
    claim_updateCentroid_formula [100] [200] 3 1 (by decide) (by decide)
      (by decide) (by decide)⟩

theorem getD_snd (d : Nat) :
    ∀ (l : List (Element × List Nat)) (n : Nat),
      (l.getD n (List.replicate d 0, [])).2 = (l.map Prod.snd).getD n [] := by
  intro l
  induction l with
  | nil => intro n; simp
  | cons x l ih =>
    intro n
    cases n with
    | zero => simp
    | succ n => simpa using ih n

theorem getD_map_range {β : Type} (f : Nat → β) (dflt : β) (k c : Nat) (hc : c < k) :
    ((List.range k).map f).getD c dflt = f c := by
  have hlen : c < ((List.range k).map f).length := by simpa using hc
  rw [List.getD_eq_getElem?_getD, List.getElem?_eq_getElem hlen]
  simp

theorem updateClustersFull_members {α : Type} [LinearOrder α] (k d : Nat)
    (dist : Nat → Nat → α) (partition : List Element) (hk : 0 < k) :
    (updateClustersFull k d dist partition).map Prod.snd =
      (List.range k).map (fun j =>
        (List.range partition.length).filter (fun i => chooseCluster k (dist i) = j)) := by
  unfold updateClustersFull
  generalize partition.length = m
  induction m with
  | zero => simp
  | succ m ih =>
    rw [List.range_succ, List.foldl_append, List.foldl_cons, List.foldl_nil]
    have hc : chooseCluster k (dist m) < k := (chooseCluster_spec k hk (dist m)).1
    rw [List.map_set, ih]
    rw [getD_snd d, ih,
      getD_map_range _ _ k (chooseCluster k (dist m)) hc]
    apply List.ext_getElem
    · simp
    · intro j hj1 hj2
      have hjk : j < k := by simpa using hj2
      rw [List.getElem_set]
      by_cases hcj : chooseCluster k (dist m) = j
      · rw [if_pos hcj]
        simp only [List.getElem_map, List.getElem_range, List.range_succ,
          List.filter_append, List.filter_cons, List.filter_nil, hcj]
        simp
      · rw [if_neg hcj]
        simp only [List.getElem_map, List.getElem_range, List.range_succ,
          List.filter_append, List.filter_cons, List.filter_nil]
        rw [if_neg (by simpa using hcj)]
        simp

theorem sum_filter_lengths (kk : Nat) :
    ∀ (l : List Nat) (c : Nat → Nat), (∀ i ∈ l, c i < kk) →
      ∑ j ∈ Finset.range kk, (l.filter (fun i => c i = j)).length = l.length := by
  intro l
  induction l with
  | nil => intro c _; simp
  | cons x l ih =>
    intro c hc
    have hx : c x < kk := hc x (by simp)
    have hstep : ∀ j ∈ Finset.range kk,
        ((x :: l).filter (fun i => c i = j)).length =
        (l.filter (fun i => c i = j)).length + (if c x = j then 1 else 0) := by
      intro j _
      rw [List.filter_cons]
      by_cases hxy : c x = j
      · rw [if_pos (by simpa using hxy), if_pos hxy]
        simp
      · rw [if_neg (by simpa using hxy), if_neg hxy]
        simp
    rw [Finset.sum_congr rfl hstep, Finset.sum_add_distrib,
      ih c (fun i hi => hc i (by simp [hi])), Finset.sum_ite_eq (Finset.range kk) (c x),
      if_pos (Finset.mem_range.mpr hx)]
    simp

theorem sum_maxNum (n P : Nat) (hP : 1 ≤ P) :
    ∑ z ∈ Finset.range P, maxNumOf n P z = n := by
  obtain ⟨Q, rfl⟩ : ∃ Q, P = Q + 1 := ⟨P - 1, by omega⟩
  rw [Finset.sum_range_succ]
  have hreg : ∀ z ∈ Finset.range Q, maxNumOf n (Q + 1) z = n / (Q + 1) := by
    intro z hz
    have hzQ := Finset.mem_range.mp hz
    unfold maxNumOf colorsEachProcess
    rw [if_neg (by omega)]
  rw [Finset.sum_congr rfl hreg, Finset.sum_const, Finset.card_range, smul_eq_mul]
  have hlast : maxNumOf n (Q + 1) Q = n - n / (Q + 1) * Q := by
    unfold maxNumOf colorsEachProcess
    rw [if_pos (by omega), show Q + 1 - 1 = Q from by omega]
  rw [hlast]
  generalize hq : n / (Q + 1) = q
  have h1 : q * (Q + 1) ≤ n := by rw [← hq]; exact Nat.div_mul_le_self n (Q + 1)
  have h2 : q * (Q + 1) = q * Q + q := by ring
  have h3 : Q * q = q * Q := Nat.mul_comm _ _
  omega

/-- Claim C6: after an assignment phase every local element index belongs to
exactly one cluster's membership list, and summed over all clusters and all
workers the membership counts equal `n`. -/
theorem claim_assignment_partitions_shard {α : Type} [LinearOrder α]
    (k d n P : Nat) (dist : Nat → Nat → Nat → α) (partitions : Nat → List Element)
    (hk : 0 < k) (hP : 1 ≤ P)
    (hlen : ∀ z, z < P → (partitions z).length = maxNumOf n P z) :
    (∀ z, z < P → ∀ i, i < maxNumOf n P z →
      ∃! j, j < k ∧ i ∈
        ((updateClustersFull k d (dist z) (partitions z)).map Prod.snd).getD j []) ∧
    (∑ z ∈ Finset.range P, ∑ j ∈ Finset.range k,
      (((updateClustersFull k d (dist z) (partitions z)).map Prod.snd).getD j []).length)
      = n := by
  have hmem : ∀ z, z < P → ∀ j, j < k →
      ((updateClustersFull k d (dist z) (partitions z)).map Prod.snd).getD j [] =
      (List.range (partitions z).length).filter
        (fun i => chooseCluster k (dist z i) = j) := by
    intro z hz j hj
    rw [updateClustersFull_members k d (dist z) (partitions z) hk,
      getD_map_range _ _ k j hj]
  constructor
  · intro z hz i hi
    have hi' : i < (partitions z).length := by rw [hlen z hz]; exact hi
    refine ⟨chooseCluster k (dist z i), ⟨(chooseCluster_spec k hk (dist z i)).1, ?_⟩, ?_⟩
    · rw [hmem z hz _ (chooseCluster_spec k hk (dist z i)).1]
      rw [List.mem_filter]
      exact ⟨List.mem_range.mpr hi', by simp⟩
    · intro j hj
      rw [hmem z hz j hj.1] at hj
      have h4 : chooseCluster k (dist z i) = j := by
        simpa using (List.mem_filter.mp hj.2).2
      exact h4.symm
  · have hinner : ∀ z ∈ Finset.range P,
        (∑ j ∈ Finset.range k,
          (((updateClustersFull k d (dist z) (partitions z)).map Prod.snd).getD j []).length)
        = maxNumOf n P z := by
      intro z hz
      have hzP := Finset.mem_range.mp hz
      have hpt : ∀ j ∈ Finset.range k,
          (((updateClustersFull k d (dist z) (partitions z)).map Prod.snd).getD j []).length
          = ((List.range (partitions z).length).filter
              (fun i => chooseCluster k (dist z i) = j)).length := by
        intro j hj
        rw [hmem z hzP j (Finset.mem_range.mp hj)]
      rw [Finset.sum_congr rfl hpt,
        sum_filter_lengths k (List.range (partitions z).length)
          (fun i => chooseCluster k (dist z i))
          (fun i _ => (chooseCluster_spec k hk (dist z i)).1)]
      rw [List.length_range, hlen z hzP]
    rw [Finset.sum_congr rfl hinner, sum_maxNum n P hP]

/-- Witness for C6 at `k = 2`, `d = 1`, `n = 3`, `P = 2`. -/
theorem claim_assignment_partitions_shard_witness :
    (0 < 2 ∧ 1 ≤ 2 ∧ (∀ z, z < 2 → (wParts z).length = maxNumOf 3 2 z)) ∧
    ((∀ z, z < 2 → ∀ i, i < maxNumOf 3 2 z →
      ∃! j, j < 2 ∧ i ∈
        ((updateClustersFull 2 1 (wDist z) (wParts z)).map Prod.snd).getD j []) ∧
    (∑ z ∈ Finset.range 2, ∑ j ∈ Finset.range 2,
      (((updateClustersFull 2 1 (wDist z) (wParts z)).map Prod.snd).getD j []).length)
      = 3) :=
  ⟨⟨by decide, by decide, by decide⟩,
    claim_assignment_partitions_shard 2 1 3 2 wDist wParts
      (by decide) (by decide) (by decide)⟩

theorem combineSendBuf_length (d : Nat) :
    ∀ (r : List (Element × Nat)), (∀ c ∈ r, c.1.length = d) →
      (combineSendBuf r).length = r.length * (d + 1) := by
  intro r
  induction r with
  | nil => intro _; simp [combineSendBuf]
  | cons c r ih =>
    intro hc
    have h1 : c.1.length = d := (hc c (by simp))
    unfold combineSendBuf at *
    simp only [List.map_cons, List.flatten_cons, List.length_append, List.length_cons]
    rw [ih (fun x hx => hc x (by simp [hx]))]
    simp [h1]
    ring

theorem parseReport_combineSendBuf (d : Nat) :
    ∀ (r : List (Element × Nat)) (rest : List Nat),
      (∀ c ∈ r, c.1.length = d ∧ c.2 < 256) →
      parseReport d r.length (combineSendBuf r ++ rest) = r := by
  intro r
  induction r with
  | nil => intro rest _; simp [parseReport]
  | cons c r ih =>
    intro rest hc
    have h1 : c.1.length = d := (hc c (by simp)).1
    have h2 : c.2 < 256 := (hc c (by simp)).2
    have hbuf : combineSendBuf (c :: r) ++ rest
        = c.1 ++ (c.2 % 256 :: (combineSendBuf r ++ rest)) := by
      unfold combineSendBuf
      simp [List.flatten_cons]
    show parseReport d (r.length + 1) _ = _
    rw [hbuf, parseReport]
    have htake : (c.1 ++ (c.2 % 256 :: (combineSendBuf r ++ rest))).take d = c.1 := by
      rw [← h1]; exact List.take_left c.1 _
    have hgetD : (c.1 ++ (c.2 % 256 :: (combineSendBuf r ++ rest))).getD d 0 = c.2 := by
      rw [List.getD_eq_getElem?_getD, List.getElem?_append_right (by omega), h1]
      simp [Nat.mod_eq_of_lt h2]
    have hdrop : (c.1 ++ (c.2 % 256 :: (combineSendBuf r ++ rest))).drop (d + 1)
        = combineSendBuf r ++ rest := by
      rw [show d + 1 = c.1.length + 1 by omega, ← List.drop_drop, List.drop_left c.1 _]
      simp
    rw [htake, hgetD, hdrop, ih rest (fun x hx => hc x (by simp [hx]))]

/-- Claim C10: the root's aggregation walk over the gathered flat buffer
equals the canonical fold that merges the per-worker reports in increasing
rank order (and, within a rank, in increasing cluster index); the merged
centroids are thus a deterministic function of the gathered reports and the
pre-merge coordinator state. -/
theorem claim_combine_rank_order (d kk : Nat)
    (reports : List (List (Element × Nat))) (state : List (Element × Nat))
    (hr : ∀ r ∈ reports, r.length = kk)
    (hc : ∀ r ∈ reports, ∀ c ∈ r, c.1.length = d ∧ c.2 < 256) :
    combineClustersRoot d kk reports.length
      ((reports.map combineSendBuf).flatten) state
      = mergeReportsInOrder state reports := by
  induction reports generalizing state with
  | nil => simp [combineClustersRoot, mergeReportsInOrder]
  | cons r rs ih =>
    have hrk : r.length = kk := hr r (by simp)
    have hrc : ∀ c ∈ r, c.1.length = d ∧ c.2 < 256 := hc r (by simp)
    show combineClustersRoot d kk (rs.length + 1) _ _ = _
    rw [List.map_cons, List.flatten_cons, combineClustersRoot]
    have hparse : parseReport d kk (combineSendBuf r ++ (rs.map combineSendBuf).flatten)
        = r := by
      rw [← hrk]
      exact parseReport_combineSendBuf d r _ hrc
    have hdrop : (combineSendBuf r ++ (rs.map combineSendBuf).flatten).drop (kk * (d + 1))
        = (rs.map combineSendBuf).flatten := by
      rw [show kk * (d + 1) = (combineSendBuf r).length by
        rw [combineSendBuf_length d r (fun c hcm => (hrc c hcm).1), hrk]]
      exact List.drop_left _ _
    rw [hparse, hdrop,
      ih (mergeWorkerReport state r) (fun x hx => hr x (List.mem_cons_of_mem r hx))
        (fun x hx => hc x (List.mem_cons_of_mem r hx))]
    rfl

/-- Witness for C10 with two workers, one cluster, one dimension. -/
theorem claim_combine_rank_order_witness :
    ((∀ r ∈ [[(([10] : Element), 2)], [(([30] : Element), 2)]], r.length = 1) ∧
      (∀ r ∈ [[(([10] : Element), 2)], [(([30] : Element), 2)]],
        ∀ c ∈ r, c.1.length = 1 ∧ c.2 < 256)) ∧
    combineClustersRoot 1 1 2
      (([[(([10] : Element), 2)], [(([30] : Element), 2)]].map combineSendBuf)).flatten
      [(([10] : Element), 2)]
      = mergeReportsInOrder [(([10] : Element), 2)]
          [[(([10] : Element), 2)], [(([30] : Element), 2)]] :=
  ⟨⟨by decide, by decide⟩,
    claim_combine_rank_order 1 1 [[([10], 2)], [([30], 2)]] [([10], 2)]
      (by decide) (by decide)⟩

/-- Claim C1 fails on the code: with previous broadcast centroids
`[[10], [200]]` and a worker shard `[[10], [12]]` (one worker, `k = 2`,
`d = 1`), cluster 1 receives zero elements in the round, yet after
`updateClusters` (which resets every centroid to the zero-filled `Element{}`)
and the root merge of `combineClusters` (which divides by a zero total count;
`0/0` is modelled as `0`, in C++ it is a NaN cast) its centroid is `[0]`, not
the retained previous centroid `[200]`. -/
theorem claim_empty_cluster_not_retained :
    ((updateClustersFull 2 1 (distTable sqDistance [[10], [200]] [[10], [12]])
        [[10], [12]]).getD 1 (List.replicate 1 0, [])).2 = [] ∧
    (combineClustersRoot 1 2 1
        (combineSendBuf
          ((updateClustersFull 2 1 (distTable sqDistance [[10], [200]] [[10], [12]])
            [[10], [12]]).map (fun c => (c.1, c.2.length))))
        ((updateClustersFull 2 1 (distTable sqDistance [[10], [200]] [[10], [12]])
          [[10], [12]]).map (fun c => (c.1, c.2.length)))).getD 1 ([], 0)
      = ([0], 0) ∧
    (([0] : Element) ≠ ([200] : Element)) := by
  refine ⟨by decide, by decide, by decide⟩

theorem fitWorkLoop_rounds_le {α : Type} [DecidableEq α] (step : α → α) :
    ∀ (b : Nat) (prev cur : α), (fitWorkLoop step b prev cur).2.1 ≤ b := by
  intro b
  induction b with
  | zero => intro prev cur; simp [fitWorkLoop]
  | succ b ih =>
    intro prev cur
    rw [fitWorkLoop]
    by_cases hpc : prev = cur
    · rw [if_pos hpc]
      simp
    · rw [if_neg hpc]
      have := ih cur (step cur)
      simpa using this

theorem fitWorkLoop_never_converging {α : Type} [DecidableEq α] (step : α → α) :
    ∀ (b : Nat) (prev cur : α), prev ≠ cur →
      (∀ g, iterN step (g + 1) cur ≠ iterN step g cur) →
      (fitWorkLoop step b prev cur).2.1 = b ∧
      (fitWorkLoop step b prev cur).2.2 = false := by
  intro b
  induction b with
  | zero => intro prev cur _ _; exact ⟨rfl, rfl⟩
  | succ b ih =>
    intro prev cur hpc hnc
    rw [fitWorkLoop, if_neg hpc]
    have hnext : cur ≠ step cur := fun h => (hnc 0 h.symm).elim
    have ⟨h1, h2⟩ := ih cur (step cur) hnext (fun g => hnc (g + 1))
    constructor
    · simpa using h1
    · simpa using h2

/-- Claim C8: the generation loop executes at most `MAX_NUM_GENERATIONS`
rounds and, on a run whose centroid states never repeat between consecutive
rounds, executes exactly `MAX_NUM_GENERATIONS` rounds and ends through budget
exhaustion (the spec's `CAPPED`), not through the convergence break. -/
theorem claim_generation_cap {α : Type} [DecidableEq α] (step : α → α)
    (prev0 c0 : α) :
    (fitWorkLoop step MAX_NUM_GENERATIONS prev0 c0).2.1 ≤ MAX_NUM_GENERATIONS ∧
    (prev0 ≠ c0 → (∀ g, iterN step (g + 1) c0 ≠ iterN step g c0) →
      (fitWorkLoop step MAX_NUM_GENERATIONS prev0 c0).2.1 = MAX_NUM_GENERATIONS ∧
      (fitWorkLoop step MAX_NUM_GENERATIONS prev0 c0).2.2 = false) :=
  ⟨fitWorkLoop_rounds_le step MAX_NUM_GENERATIONS prev0 c0,
    fun h0 hnc => fitWorkLoop_never_converging step MAX_NUM_GENERATIONS prev0 c0 h0 hnc⟩

theorem iterN_nat_succ : ∀ (m x : Nat), iterN Nat.succ m x = x + m := by
  intro m
  induction m with
  | zero => intro x; rfl
  | succ m ih =>
    intro x
    rw [iterN, ih]
    omega

/-- Witness for C8: the strictly increasing run `Nat.succ` never converges and
is capped after exactly 300 rounds. -/
theorem claim_generation_cap_witness :
    (fitWorkLoop Nat.succ MAX_NUM_GENERATIONS 5 0).2.1 = MAX_NUM_GENERATIONS ∧
    (fitWorkLoop Nat.succ MAX_NUM_GENERATIONS 5 0).2.2 = false :=
  (claim_generation_cap Nat.succ 5 0).2 (by decide)
    (fun g => by rw [iterN_nat_succ, iterN_nat_succ]; omega)

theorem fitWorkLoop_capped_of_distinct {α : Type} [DecidableEq α] (step : α → α) :
    ∀ (b : Nat) (prev cur : α), prev ≠ cur →
      (∀ g, g + 1 < b → iterN step (g + 1) cur ≠ iterN step g cur) →
      (fitWorkLoop step b prev cur).2.1 = b ∧
      (fitWorkLoop step b prev cur).2.2 = false := by
  intro b
  induction b with
  | zero => intro prev cur _ _; exact ⟨rfl, rfl⟩
  | succ b ih =>
    intro prev cur hpc hnc
    rw [fitWorkLoop, if_neg hpc]
    cases b with
    | zero => exact ⟨rfl, rfl⟩
    | succ b1 =>
      have hnext : cur ≠ step cur := fun h => (hnc 0 (by omega) h.symm).elim
      have ⟨h1, h2⟩ := ih cur (step cur) hnext
        (fun g hg => hnc (g + 1) (by omega))
      constructor
      · simpa using h1
      · simpa using h2

theorem iterN_step_comm {α : Type} (step : α → α) :
    ∀ (m : Nat) (c : α), iterN step (m + 1) c = step (iterN step m c) := by
  intro m
  induction m with
  | zero => intro c; rfl
  | succ m ih =>
    intro c
    show iterN step (m + 1) (step c) = _
    rw [ih (step c)]
    rfl

theorem iterN_cxStep_closed :
    ∀ g, iterN cxStep g [[0, 0]] = [[min g 299 % 256, min g 299 / 256]] := by
  intro g
  induction g with
  | zero => rfl
  | succ g ih =>
    rw [iterN_step_comm, ih]
    unfold cxStep
    simp only [List.headD_cons, List.getD_cons_succ, List.getD_cons_zero]
    rw [Nat.mod_add_div (min g 299) 256]
    rw [show min (min g 299 + 1) 299 = min (g + 1) 299 from by omega]

/-- Claim C7 as stated fails at the budget boundary: on the `cxStep` run the
centroid state after round 300's broadcast equals the state after round 299 —
a round whose broadcast repeats the previous round's centroids — yet the loop
ends by exhausting all 300 generations without the convergence break
(`CAPPED`), because the comparison at the top of the loop never examines the
final round's result. -/
theorem claim_convergence_check_boundary_cx :
    (∃ g, 0 < g ∧ g ≤ MAX_NUM_GENERATIONS ∧
      iterN cxStep g [[0, 0]] = iterN cxStep (g - 1) [[0, 0]]) ∧
    (fitWorkLoop cxStep MAX_NUM_GENERATIONS [[7, 7]] [[0, 0]]).2.1 =
      MAX_NUM_GENERATIONS ∧
    (fitWorkLoop cxStep MAX_NUM_GENERATIONS [[7, 7]] [[0, 0]]).2.2 = false := by
  have hstable : iterN cxStep 300 [[0, 0]] = iterN cxStep 299 [[0, 0]] := by
    rw [iterN_cxStep_closed, iterN_cxStep_closed]
    norm_num
  have hdistinct : ∀ g, g + 1 < MAX_NUM_GENERATIONS →
      iterN cxStep (g + 1) [[0, 0]] ≠ iterN cxStep g [[0, 0]] := by
    intro g hg heq
    rw [iterN_cxStep_closed, iterN_cxStep_closed] at heq
    have hg' : g + 1 ≤ 299 := by
      unfold MAX_NUM_GENERATIONS at hg
      omega
    rw [show min (g + 1) 299 = g + 1 from by omega,
      show min g 299 = g from by omega] at heq
    have h1 : (g + 1) % 256 = g % 256 ∧ (g + 1) / 256 = g / 256 := by
      simpa using heq
    omega
  have hcap := fitWorkLoop_capped_of_distinct cxStep MAX_NUM_GENERATIONS
    [[7, 7]] [[0, 0]] (by decide) hdistinct
  exact ⟨⟨300, by omega, by unfold MAX_NUM_GENERATIONS; omega, hstable⟩,
    hcap.1, hcap.2⟩

/-- Amended claim C7: if the centroid state repeats between consecutive
rounds `g-1` and `g` for some round `g` strictly below the generation budget,
the loop exits through the convergence break (the spec's `CONVERGED`), not by
exhausting the budget. Identity arising only at the very last budgeted round
is never compared (see the counterexample). -/
theorem claim_convergence_detected_before_cap {α : Type} [DecidableEq α]
    (step : α → α) (b : Nat) (prev0 c0 : α) (g : Nat)
    (hg : 0 < g) (hgb : g < b)
    (hst : iterN step g c0 = iterN step (g - 1) c0) :
    (fitWorkLoop step b prev0 c0).2.2 = true := by
  induction b generalizing prev0 c0 g with
  | zero => omega
  | succ b ih =>
    rw [fitWorkLoop]
    by_cases hpc : prev0 = c0
    · rw [if_pos hpc]
    · rw [if_neg hpc]
      obtain ⟨g1, rfl⟩ : ∃ g1, g = g1 + 1 := ⟨g - 1, by omega⟩
      simp only [Nat.add_sub_cancel] at hst
      cases Nat.eq_zero_or_pos g1 with
      | inl h0 =>
        subst h0
        have hfix : step c0 = c0 := hst
        obtain ⟨b1, rfl⟩ : ∃ b1, b = b1 + 1 := ⟨b - 1, by omega⟩
        show (fitWorkLoop step (b1 + 1) c0 (step c0)).2.2 = true
        rw [fitWorkLoop, if_pos hfix.symm]
      | inr hpos =>
        show (fitWorkLoop step b c0 (step c0)).2.2 = true
        apply ih c0 (step c0) g1 hpos (by omega)
        obtain ⟨g2, rfl⟩ : ∃ g2, g1 = g2 + 1 := ⟨g1 - 1, by omega⟩
        simpa using hst

/-- Witness for the amended C7: a run that becomes stationary after 4 rounds
(well before the 300-generation budget) exits through the convergence break. -/
theorem claim_convergence_detected_before_cap_witness :
    (0 < 4 ∧ 4 < MAX_NUM_GENERATIONS ∧
      iterN (fun n => min (n + 1) 3) 4 0 = iterN (fun n => min (n + 1) 3) (4 - 1) 0) ∧
    (fitWorkLoop (fun n => min (n + 1) 3) MAX_NUM_GENERATIONS 9 0).2.2 = true :=
  ⟨⟨by decide, by decide, by decide⟩,
    claim_convergence_detected_before_cap (fun n => min (n + 1) 3)
      MAX_NUM_GENERATIONS 9 0 4 (by decide) (by decide) (by decide)⟩

theorem parseWorker_collectSendBuf (cids : List Nat) :
    ∀ (mem : List (List Nat)) (rest : List Nat), (∀ c ∈ mem, c.length ≤ 255) →
      parseWorkerClusters mem.length (collectSendBuf cids mem ++ rest) =
        (mem.map (List.map (fun idx => (cids.getD idx 0) % 256)), rest) := by
  intro mem
  induction mem with
  | nil => intro rest _; simp [parseWorkerClusters, collectSendBuf]
  | cons c mem ih =>
    intro rest hc
    have hclen : c.length ≤ 255 := hc c (by simp)
    have hbuf : collectSendBuf cids (c :: mem) ++ rest =
        (c.length % 256) :: ((c.map (fun idx => (cids.getD idx 0) % 256)) ++
          (collectSendBuf cids mem ++ rest)) := by
      unfold collectSendBuf
      simp [List.flatten_cons]
    show parseWorkerClusters (mem.length + 1) _ = _
    rw [hbuf, parseWorkerClusters]
    have hmod : c.length % 256 = c.length := Nat.mod_eq_of_lt (by omega)
    simp only [List.headD_cons, List.tail_cons, hmod]
    have htake : ((c.map (fun idx => (cids.getD idx 0) % 256)) ++
        (collectSendBuf cids mem ++ rest)).take c.length =
        c.map (fun idx => (cids.getD idx 0) % 256) := by
      rw [show c.length = (c.map (fun idx => (cids.getD idx 0) % 256)).length from
        by simp]
      exact List.take_left _ _
    have hdrop : ((c.map (fun idx => (cids.getD idx 0) % 256)) ++
        (collectSendBuf cids mem ++ rest)).drop c.length =
        collectSendBuf cids mem ++ rest := by
      rw [show c.length = (c.map (fun idx => (cids.getD idx 0) % 256)).length from
        by simp]
      exact List.drop_left _ _
    rw [htake, hdrop, ih rest (fun x hx => hc x (by simp [hx]))]
    simp

theorem parseAllWorkers_gathered (kk : Nat) :
    ∀ (ws : List (List Nat × List (List Nat))),
      (∀ w ∈ ws, w.2.length = kk ∧ ∀ c ∈ w.2, c.length ≤ 255) →
      parseAllWorkers kk ws.length
        ((ws.map (fun w => collectSendBuf w.1 w.2)).flatten) =
      ws.map (fun w => w.2.map (List.map (fun idx => (w.1.getD idx 0) % 256))) := by
  intro ws
  induction ws with
  | nil => intro _; simp [parseAllWorkers]
  | cons w ws ih =>
    intro hw
    have hwk : w.2.length = kk := (hw w (by simp)).1
    have hwc : ∀ c ∈ w.2, c.length ≤ 255 := (hw w (by simp)).2
    show parseAllWorkers kk (ws.length + 1) _ = _
    rw [List.map_cons, List.flatten_cons, parseAllWorkers]
    have hparse : parseWorkerClusters kk
        (collectSendBuf w.1 w.2 ++ (ws.map (fun w => collectSendBuf w.1 w.2)).flatten) =
        (w.2.map (List.map (fun idx => (w.1.getD idx 0) % 256)),
          (ws.map (fun w => collectSendBuf w.1 w.2)).flatten) := by
      rw [← hwk]
      exact parseWorker_collectSendBuf w.1 w.2 _ hwc
    rw [hparse]
    simp only [List.map_cons]
    rw [ih (fun x hx => hw x (by simp [hx]))]

theorem list_range_map_sum {M : Type} [AddCommMonoid M] (f : Nat → M) :
    ∀ n : Nat, ((List.range n).map f).sum = ∑ i ∈ Finset.range n, f i := by
  intro n
  induction n with
  | zero => simp
  | succ n ih =>
    rw [List.range_succ, List.map_append, List.sum_append, ih,
      Finset.sum_range_succ]
    simp

theorem coe_flatten {β : Type} :
    ∀ L : List (List β),
      Multiset.ofList L.flatten = (L.map (fun l => Multiset.ofList l)).sum := by
  intro L
  induction L with
  | nil => rfl
  | cons c L ih =>
    rw [List.flatten_cons, List.map_cons, List.sum_cons, ← ih]
    exact (Multiset.coe_add c L.flatten).symm

theorem sum_getD_coe {β : Type} :
    ∀ L : List (List β),
      (∑ i ∈ Finset.range L.length, Multiset.ofList (L.getD i [])) =
        Multiset.ofList L.flatten := by
  intro L
  induction L with
  | nil =>
    rw [show ([] : List (List β)).length = 0 from rfl, Finset.range_zero,
      Finset.sum_empty]
    rfl
  | cons c L ih =>
    rw [show (c :: L).length = L.length + 1 from rfl, Finset.sum_range_succ']
    simp only [List.getD_cons_succ, List.getD_cons_zero]
    rw [ih, List.flatten_cons, add_comm]
    exact Multiset.coe_add c L.flatten

theorem range_chunks (q : Nat) :
    ∀ m : Nat, ((List.range m).map (fun z => List.range' (z * q) q)).flatten =
      List.range' 0 (m * q) := by
  intro m
  induction m with
  | zero => simp
  | succ m ih =>
    rw [List.range_succ, List.map_append, List.flatten_append, ih]
    simp only [List.map_cons, List.map_nil, List.flatten_cons, List.flatten_nil,
      List.append_nil]
    have happ := List.range'_append_1 0 (m * q) q
    rw [Nat.zero_add] at happ
    rw [happ, show q + m * q = (m + 1) * q from by ring]

theorem range_shards_cover (n P : Nat) (hP : 1 ≤ P) :
    ((List.range P).map (fun z =>
      List.range' (z * (n / P)) (maxNumOf n P z))).flatten = List.range n := by
  set q := n / P with hq
  have hsplit : List.range P = List.range (P - 1) ++ [P - 1] := by
    rw [← List.range_succ]
    congr 1
    omega
  rw [hsplit, List.map_append, List.flatten_append]
  have hreg : ∀ z ∈ List.range (P - 1),
      List.range' (z * q) (maxNumOf n P z) = List.range' (z * q) q := by
    intro z hz
    have hz' := List.mem_range.mp hz
    unfold maxNumOf colorsEachProcess
    rw [if_neg (by omega)]
  rw [List.map_congr_left hreg, range_chunks q (P - 1)]
  have hlast : maxNumOf n P (P - 1) = n - (P - 1) * q := by
    unfold maxNumOf colorsEachProcess
    rw [if_pos rfl, Nat.mul_comm, ← hq]
  simp only [List.map_cons, List.map_nil, List.flatten_cons, List.flatten_nil,
    List.append_nil, hlast]
  have hPq : (P - 1) * q ≤ n := by
    have h1 : P * q ≤ n := by
      rw [Nat.mul_comm, hq]; exact Nat.div_mul_le_self n P
    have h2 : (P - 1) * q ≤ P * q := Nat.mul_le_mul_right _ (by omega)
    omega
  have happ := List.range'_append_1 0 ((P - 1) * q) (n - (P - 1) * q)
  rw [Nat.zero_add] at happ
  rw [happ, show n - (P - 1) * q + (P - 1) * q = n from by omega,
    ← List.range_eq_range']

theorem map_getD_colorIds (n P z : Nat) :
    (List.range (maxNumOf n P z)).map
      (fun idx => ((workerColorIds n P z).getD idx 0) % 256) =
    workerColorIds n P z := by
  unfold workerColorIds
  apply List.ext_getElem
  · simp
  · intro i h1 h2
    have him : i < maxNumOf n P z := by simpa using h1
    rw [List.getElem_map, List.getElem_range]
    have hmapped : i < ((List.range' (z * colorsEachProcess n P)
        (maxNumOf n P z)).map (· % 256)).length := by
      simpa using him
    rw [List.getD_eq_getElem?_getD, List.getElem?_eq_getElem hmapped]
    simp only [Option.getD_some, List.getElem_map, List.getElem_range']
    omega

/-- Amended claim C2: provided `n ≤ 256` and every per-worker cluster holds at
most 255 members, every element identity in the coordinator's final
`Clusters` corresponds to exactly one dataset element and every one of the
`n` dataset identities appears exactly once across the `k` clusters (the
collected membership lists are a permutation of `0..n-1`). Without those
bounds the single-byte wire encoding of identities and counts truncates
(see the counterexample). -/
theorem claim_identity_roundtrip (k n P : Nat) (mem : Nat → List (List Nat))
    (hP : 1 ≤ P) (hn : n ≤ 256)
    (hmem : ∀ z, z < P → (mem z).length = k ∧
      ((mem z).flatten).Perm (List.range (maxNumOf n P z)) ∧
      ∀ c ∈ mem z, c.length ≤ 255) :
    (((List.range k).map (fun i => finalClusterElements P k
      (((List.range P).map
        (fun z => collectSendBuf (workerColorIds n P z) (mem z))).flatten) i)).flatten).Perm
      (List.range n) := by
  have hB : ((List.range P).map (fun z => (workerColorIds n P z, mem z))).map
      (fun w => collectSendBuf w.1 w.2) =
      (List.range P).map (fun z => collectSendBuf (workerColorIds n P z) (mem z)) := by
    rw [List.map_map]
    rfl
  have hArg : ∀ w ∈ (List.range P).map (fun z => (workerColorIds n P z, mem z)),
      w.2.length = k ∧ ∀ c ∈ w.2, c.length ≤ 255 := by
    intro w hw
    obtain ⟨z, hz, rfl⟩ := List.mem_map.mp hw
    exact ⟨(hmem z (List.mem_range.mp hz)).1, (hmem z (List.mem_range.mp hz)).2.2⟩
  have hparsed : parseAllWorkers k P
      (((List.range P).map
        (fun z => collectSendBuf (workerColorIds n P z) (mem z))).flatten) =
      (List.range P).map (fun z => (mem z).map
        (List.map (fun idx => (workerColorIds n P z).getD idx 0 % 256))) := by
    have h := parseAllWorkers_gathered k
      ((List.range P).map (fun z => (workerColorIds n P z, mem z))) hArg
    rw [hB] at h
    rw [show ((List.range P).map (fun z => (workerColorIds n P z, mem z))).length = P
      from by simp] at h
    rw [h, List.map_map]
    rfl
  have hfinal : ∀ i, finalClusterElements P k
      (((List.range P).map
        (fun z => collectSendBuf (workerColorIds n P z) (mem z))).flatten) i =
      ((List.range P).map (fun z => ((mem z).map
        (List.map (fun idx => (workerColorIds n P z).getD idx 0 % 256))).getD i [])).flatten := by
    intro i
    unfold finalClusterElements
    rw [hparsed, List.map_map]
    rfl
  have hgoal : Multiset.ofList (((List.range k).map (fun i => finalClusterElements P k
      (((List.range P).map
        (fun z => collectSendBuf (workerColorIds n P z) (mem z))).flatten) i)).flatten) =
      Multiset.ofList (List.range n) := by
    rw [coe_flatten, List.map_map, list_range_map_sum]
    simp only [Function.comp_apply]
    have hstep3 : ∀ i ∈ Finset.range k,
        Multiset.ofList (finalClusterElements P k
          (((List.range P).map
            (fun z => collectSendBuf (workerColorIds n P z) (mem z))).flatten) i) =
        ∑ z ∈ Finset.range P, Multiset.ofList (((mem z).map
          (List.map (fun idx => (workerColorIds n P z).getD idx 0 % 256))).getD i []) := by
      intro i _
      rw [hfinal i, coe_flatten, List.map_map]
      rw [show ((fun l => Multiset.ofList l) ∘ fun z => ((mem z).map
          (List.map (fun idx => (workerColorIds n P z).getD idx 0 % 256))).getD i []) =
        (fun z => Multiset.ofList (((mem z).map
          (List.map (fun idx => (workerColorIds n P z).getD idx 0 % 256))).getD i []))
        from rfl]
      rw [list_range_map_sum]
    rw [Finset.sum_congr rfl hstep3, Finset.sum_comm]
    have hstep5 : ∀ z ∈ Finset.range P,
        (∑ i ∈ Finset.range k, Multiset.ofList (((mem z).map
          (List.map (fun idx => (workerColorIds n P z).getD idx 0 % 256))).getD i [])) =
        Multiset.ofList (workerColorIds n P z) := by
      intro z hz
      have hzP := Finset.mem_range.mp hz
      rw [show k = ((mem z).map
          (List.map (fun idx => (workerColorIds n P z).getD idx 0 % 256))).length
        from by simp [(hmem z hzP).1]]
      rw [sum_getD_coe]
      have h1 : ((mem z).map
          (List.map (fun idx => (workerColorIds n P z).getD idx 0 % 256))).flatten =
          List.map (fun idx => (workerColorIds n P z).getD idx 0 % 256)
            ((mem z).flatten) := (List.map_flatten _ _).symm
      rw [h1]
      have h2 := ((hmem z hzP).2.1).map
        (fun idx => (workerColorIds n P z).getD idx 0 % 256)
      rw [map_getD_colorIds n P z] at h2
      exact Multiset.coe_eq_coe.mpr h2
    rw [Finset.sum_congr rfl hstep5, ← list_range_map_sum]
    rw [show (List.range P).map (fun z => Multiset.ofList (workerColorIds n P z)) =
        ((List.range P).map (fun z => workerColorIds n P z)).map
          (fun l => Multiset.ofList l) from by rw [List.map_map]; rfl]
    rw [← coe_flatten]
    congr 1
    have hflat : ((List.range P).map (fun z => workerColorIds n P z)).flatten =
        List.map (· % 256) (((List.range P).map (fun z =>
          List.range' (z * (n / P)) (maxNumOf n P z))).flatten) := by
      unfold workerColorIds colorsEachProcess
      rw [List.map_flatten, List.map_map]
      rfl
    rw [hflat, range_shards_cover n P hP]
    have hid : ∀ x ∈ List.range n, x % 256 = x := by
      intro x hx
      have := List.mem_range.mp hx
      omega
    rw [List.map_congr_left hid, List.map_id']
  exact Multiset.coe_eq_coe.mp hgoal

/-- Witness for the amended C2 at `n = 5`, `P = 2`, `k = 2`. -/
theorem claim_identity_roundtrip_witness :
    (1 ≤ 2 ∧ 5 ≤ 256 ∧ (∀ z, z < 2 → (wMem z).length = 2 ∧
      ((wMem z).flatten).Perm (List.range (maxNumOf 5 2 z)) ∧
      ∀ c ∈ wMem z, c.length ≤ 255)) ∧
    (((List.range 2).map (fun i => finalClusterElements 2 2
      (((List.range 2).map
        (fun z => collectSendBuf (workerColorIds 5 2 z) (wMem z))).flatten) i)).flatten).Perm
      (List.range 5) :=
  ⟨⟨by decide, by decide, by decide⟩,
    claim_identity_roundtrip 2 5 2 wMem (by decide) (by decide) (by decide)⟩

set_option maxRecDepth 2000 in
/-- Claim C2 as stated fails for `n = 257`: global identities and per-cluster
counts travel as single bytes, so with one worker and one cluster holding all
257 elements the transmitted count is `257 % 256 = 1` and the coordinator
collects only the single identity `0` — the collected lists are not a
permutation of `0..256`. -/
theorem claim_identity_roundtrip_cx :
    (((List.range 1).map (fun i => finalClusterElements 1 1
      (((List.range 1).map
        (fun z => collectSendBuf (workerColorIds 257 1 z) [List.range 257])).flatten) i)).flatten)
      = [0] ∧
    ¬ ((((List.range 1).map (fun i => finalClusterElements 1 1
      (((List.range 1).map
        (fun z => collectSendBuf (workerColorIds 257 1 z) [List.range 257])).flatten) i)).flatten).Perm
      (List.range 257)) := by
  have hval : (((List.range 1).map (fun i => finalClusterElements 1 1
      (((List.range 1).map
        (fun z => collectSendBuf (workerColorIds 257 1 z) [List.range 257])).flatten) i)).flatten)
      = [0] := by decide
  refine ⟨hval, ?_⟩
  intro h
  have hlen := h.length_eq
  rw [hval] at hlen
  simp at hlen

theorem parseReport_combineSendBuf_mod (d : Nat) :
    ∀ (r : List (Element × Nat)) (rest : List Nat),
      (∀ c ∈ r, c.1.length = d) →
      parseReport d r.length (combineSendBuf r ++ rest) =
        r.map (fun c => (c.1, c.2 % 256)) := by
  intro r
  induction r with
  | nil => intro rest _; simp [parseReport]
  | cons c r ih =>
    intro rest hc
    have h1 : c.1.length = d := hc c (by simp)
    have hbuf : combineSendBuf (c :: r) ++ rest
        = c.1 ++ (c.2 % 256 :: (combineSendBuf r ++ rest)) := by
      unfold combineSendBuf
      simp [List.flatten_cons]
    show parseReport d (r.length + 1) _ = _
    rw [hbuf, parseReport]
    have htake : (c.1 ++ (c.2 % 256 :: (combineSendBuf r ++ rest))).take d = c.1 := by
      rw [← h1]; exact List.take_left c.1 _
    have hgetD : (c.1 ++ (c.2 % 256 :: (combineSendBuf r ++ rest))).getD d 0
        = c.2 % 256 := by
      rw [List.getD_eq_getElem?_getD, List.getElem?_append_right (by omega), h1]
      simp
    have hdrop : (c.1 ++ (c.2 % 256 :: (combineSendBuf r ++ rest))).drop (d + 1)
        = combineSendBuf r ++ rest := by
      rw [show d + 1 = c.1.length + 1 by omega, ← List.drop_drop, List.drop_left c.1 _]
      simp
    rw [htake, hgetD, hdrop, ih rest (fun x hx => hc x (by simp [hx]))]
    simp

theorem map_mod256_eq_iff :
    ∀ l : List Nat, (l.map (fun x => x % 256) = l) ↔ (∀ x ∈ l, x ≤ 255) := by
  intro l
  induction l with
  | nil => simp
  | cons x l ih =>
    simp only [List.map_cons, List.cons.injEq, List.mem_cons]
    constructor
    · rintro ⟨h1, h2⟩ y hy
      rcases hy with hy | hy
      · rw [hy]
        omega
      · exact ih.mp h2 y hy
    · intro h
      refine ⟨Nat.mod_eq_of_lt (by have := h x (Or.inl rfl); omega), ?_⟩
      exact ih.mpr (fun y hy => h y (Or.inr hy))

/-- Claim C9: cluster member counts cross the wire as one unsigned byte: the
aggregation report transmits each count modulo 256, the transmitted counts
equal the true ones exactly when every local cluster has at most 255 members,
and under that bound the result-collection sizes also round-trip exactly. -/
theorem claim_wire_count_byte (dd : Nat) (cls : List (Element × Nat))
    (cids : List Nat) (mem : List (List Nat))
    (hd : ∀ c ∈ cls, c.1.length = dd) :
    ((parseReport dd cls.length (combineSendBuf cls)).map Prod.snd =
      cls.map (fun c => c.2 % 256)) ∧
    ((parseReport dd cls.length (combineSendBuf cls)).map Prod.snd =
        cls.map Prod.snd ↔ ∀ c ∈ cls, c.2 ≤ 255) ∧
    ((∀ c ∈ mem, c.length ≤ 255) →
      ((parseWorkerClusters mem.length (collectSendBuf cids mem)).1).map List.length =
        mem.map List.length) := by
  have hparse : parseReport dd cls.length (combineSendBuf cls) =
      cls.map (fun c => (c.1, c.2 % 256)) := by
    have h := parseReport_combineSendBuf_mod dd cls [] hd
    rwa [List.append_nil] at h
  have hfst : (parseReport dd cls.length (combineSendBuf cls)).map Prod.snd =
      cls.map (fun c => c.2 % 256) := by
    rw [hparse, List.map_map]
    rfl
  refine ⟨hfst, ?_, ?_⟩
  · rw [hfst]
    have hmm : cls.map (fun c => c.2 % 256) =
        (cls.map Prod.snd).map (fun x => x % 256) := by
      rw [List.map_map]
      rfl
    rw [hmm]
    constructor
    · intro h c hc
      exact (map_mod256_eq_iff (cls.map Prod.snd)).mp h c.2
        (List.mem_map.mpr ⟨c, hc, rfl⟩)
    · intro h
      apply (map_mod256_eq_iff (cls.map Prod.snd)).mpr
      intro x hx
      obtain ⟨c, hc, rfl⟩ := List.mem_map.mp hx
      exact h c hc
  · intro hmb
    have h := parseWorker_collectSendBuf cids mem [] hmb
    rw [List.append_nil] at h
    rw [h]
    simp only [List.map_map]
    apply List.map_congr_left
    intro c _
    simp

/-- Witness for C9: a cluster with 300 members reports the byte `44 = 300 %
256`, so the count does not round-trip; a one-member cluster's size does. -/
theorem claim_wire_count_byte_witness :
    (∀ c ∈ [(([7] : Element), 300)], c.1.length = 1) ∧
    ((parseReport 1 [(([7] : Element), 300)].length
        (combineSendBuf [(([7] : Element), 300)])).map Prod.snd =
      [(([7] : Element), 300)].map (fun c => c.2 % 256)) ∧
    ((parseReport 1 [(([7] : Element), 300)].length
        (combineSendBuf [(([7] : Element), 300)])).map Prod.snd =
        [(([7] : Element), 300)].map Prod.snd ↔
      ∀ c ∈ [(([7] : Element), 300)], c.2 ≤ 255) ∧
    ((∀ c ∈ [[0]], List.length c ≤ 255) →
      ((parseWorkerClusters [[0]].length (collectSendBuf [0] [[0]])).1).map List.length =
        ([[0]] : List (List Nat)).map List.length) :=
  ⟨by decide,
    (claim_wire_count_byte 1 [([7], 300)] [0] [[0]] (by decide)).1,
    (claim_wire_count_byte 1 [([7], 300)] [0] [[0]] (by decide)).2.1,
    (claim_wire_count_byte 1 [([7], 300)] [0] [[0]] (by decide)).2.2⟩

end KMeansMPI
